import Mathlib

/-!
Verification of the maximum-cardinality matching core of the PADS repository
(`CardinalityMatching.py`): a shallow embedding of Edmonds' blossom-contraction
algorithm as executable Lean functions, together with theorems about the
embedded code.

Python dictionaries are embedded as association lists with
replace-or-append insertion (matching CPython's key-order semantics);
vertices are natural numbers; every `while` loop and every recursion of the
source carries explicit fuel; dictionary lookups that may raise `KeyError`
in Python return `Except Err` values, with one error constructor per lookup
site so that distinct failure modes stay distinguishable.
-/

namespace CardinalityMatching

/-- A Python dict with `Nat` keys, as an association list in key-insertion
order: assignment replaces the value of an existing key in place and appends
a new key at the end, exactly like CPython dicts. -/
abbrev Dict (α : Type) := List (Nat × α)

/-- Dictionary lookup: first entry with the given key. -/
def dget? {α : Type} : Dict α → Nat → Option α
  | [], _ => none
  | p :: rest, k => if p.1 = k then some p.2 else dget? rest k

/-- Dictionary assignment `d[k] = v`: replace in place, or append. -/
def dinsert {α : Type} : Dict α → Nat → α → Dict α
  | [], k, v => [(k, v)]
  | p :: rest, k, v => if p.1 = k then (k, v) :: rest else p :: dinsert rest k v

/-- Modelled from the spec: `CardinalityMatching.py` imports `UnionFind`
from `UnionFind.py`, which is not among the sources; section 6 of the spec
specifies the collaborator's interface: `find(x)` returns the canonical
representative of `x`'s set, with newly seen elements implicitly singleton
sets.  We represent the structure as a map sending each element directly to
its canonical representative. -/
def ufFind (uf : Dict Nat) (x : Nat) : Nat := (dget? uf x).getD x

/-- Modelled from the spec: `union(x, y, ...)` "merges the sets containing
the given elements into one; any one of their previous representatives
becomes (or remains) canonical."  We let the representative of the first
argument become canonical: every element whose representative is the
representative of one of the arguments is re-pointed at it. -/
def ufUnion : Dict Nat → List Nat → Dict Nat
  | uf, [] => uf
  | uf, x0 :: xr =>
    (((x0 :: xr) ++ (x0 :: xr).map (ufFind uf)).map
        (fun x => (x, ufFind uf x0))) ++
      uf.map (fun p =>
        if p.2 ∈ (x0 :: xr).map (ufFind uf) then (p.1, ufFind uf x0) else p)

/-- A graph in "modified GvR form": `iter(G)` lists its vertices in order,
`G[v]` lists the neighbors of `v` in order. -/
abbrev Graph := Dict (List Nat)

/-- `w in G[v]` adjacency test. -/
def isEdge (G : Graph) (v w : Nat) : Bool := ((dget? G v).getD []).contains w

/-- Every neighbor of a listed vertex is itself a listed vertex. -/
def wfClosed (G : Graph) : Bool :=
  G.all fun p => p.2.all fun w => (dget? G w).isSome

/-- Symmetry: `w in G[v]` implies `v in G[w]`. -/
def wfSym (G : Graph) : Bool := G.all fun p => p.2.all fun w => isEdge G w p.1

/-- No self-loops. -/
def wfLoopFree (G : Graph) : Bool := G.all fun p => !p.2.contains p.1

/-- Well-formed simple undirected graph, per the spec's input contract. -/
def wellformedG (G : Graph) : Bool := wfClosed G && wfSym G && wfLoopFree G

/-- A valid matching for `G`: symmetric, and every pair is an edge of `G`. -/
def validMatchingB (G : Graph) (m : Dict Nat) : Bool :=
  m.all fun p => (dget? m p.2 == some p.1) && isEdge G p.1 p.2

/-- Failure modes of the embedded code: fuel exhaustion (a loop of the
source ran longer than the allotted fuel) and one constructor per
dictionary lookup of the source that could raise `KeyError`.
`keyMatchW` is the lookup `u = matching[w]` in the T-node branch of the
main augmenting path search loop. -/
inductive Err where
  | fuel
  | keyS
  | keyT
  | keyBase
  | keyG
  | keyMatchW
deriving Repr, DecidableEq

/-- The per-phase bookkeeping of one augmenting path search, mirroring the
local variables of `augment` together with the matching it mutates:
`leader` is the union-find, `S` the even-level blossoms (value = structure
tree parent), `T` the odd-level vertices (value = S-vertex across the
discovering edge), `base` the blossom reconstruction anchors, and
`unexplored` the FIFO queue of vertices awaiting exploration. -/
structure Phase where
  matching : Dict Nat
  leader : Dict Nat
  S : Dict Nat
  T : Dict Nat
  base : Dict (Nat × Nat)
  unexplored : List Nat
deriving Repr, DecidableEq

/-- One parallel-walk step of `ss`: move `head` one S,T alternation up its
structure tree, recording the hop in `path`; a head equal to its own parent
is a structure tree root and stays put. -/
def step (leader S T : Dict Nat) (path : Dict Nat) (head : Nat) :
    Except Err (Dict Nat × Nat) :=
  let h := ufFind leader head
  match dget? S h with
  | none => .error .keyS
  | some sh =>
    let parent := ufFind leader sh
    if parent = h then .ok (path, h)
    else
      match dget? T parent with
      | none => .error .keyT
      | some tp =>
        let nxt := ufFind leader tp
        .ok (dinsert (dinsert path h parent) parent nxt, nxt)

/-- The loop of `blossom.findSide`: walk from `last` up to the common
ancestor `a`, recording the new base `b` for every T-node passed and
appending it to the unexplored queue; returns the path walked together
with the updated base map and queue. -/
def findSideFrom (leader S T : Dict Nat) (b : Nat × Nat) (a : Nat) :
    Nat → Nat → Dict (Nat × Nat) → List Nat →
    Except Err (List Nat × Dict (Nat × Nat) × List Nat)
  | 0, last, bse, unx =>
    if last = a then .ok ([last], bse, unx) else .error .fuel
  | f + 1, last, bse, unx =>
    if last = a then .ok ([last], bse, unx)
    else
      match dget? S last with
      | none => .error .keyS
      | some tnode =>
        match dget? T tnode with
        | none => .error .keyT
        | some tv =>
          match findSideFrom leader S T b a f (ufFind leader tv)
              (dinsert bse tnode b) (unx ++ [tnode]) with
          | .error e => .error e
          | .ok (p, bs, ux) => .ok (last :: tnode :: p, bs, ux)

/-- `blossom(v, w, a)`: create a new blossom from the S-S edge `v`-`w`
with common ancestor `a`: walk both sides up to `a`, union everything
visited into one group, and let the merged group inherit the structure
tree parent of `a`. -/
def blossom (st : Phase) (v w a : Nat) (fuel : Nat) : Except Err Phase :=
  let a := ufFind st.leader a
  match findSideFrom st.leader st.S st.T (v, w) a fuel (ufFind st.leader v)
      st.base st.unexplored with
  | .error e => .error e
  | .ok (p1, b1, u1) =>
    match findSideFrom st.leader st.S st.T (w, v) a fuel (ufFind st.leader w)
        b1 u1 with
    | .error e => .error e
    | .ok (p2, b2, u2) =>
      let ld := ufUnion (ufUnion st.leader p1) p2
      match dget? st.S a with
      | none => .error .keyS
      | some sa =>
        .ok { st with leader := ld, S := dinsert st.S (ufFind ld a) sa,
                      base := b2, unexplored := u2 }

/-- `alternatingPath(start, goal)`: the sequence of vertices on the
alternating path from `start` to `goal` (a `goal` of `none` is the
`topless` sentinel: continue to the structure tree root).  The source's
outer `while 1`, its inner `while start in T`, and its recursive call all
become recursion on fuel; `path` accumulates the vertices emitted so far. -/
def alternatingPath (m T : Dict Nat) (bse : Dict (Nat × Nat)) :
    Nat → Nat → Option Nat → List Nat → Except Err (List Nat)
  | 0, _, _, _ => .error .fuel
  | fuel + 1, start, goal, path =>
    match dget? T start with
    | some _ =>
      match dget? bse start with
      | none => .error .keyBase
      | some (v, w) =>
        match alternatingPath m T bse fuel v (some start) [] with
        | .error e => .error e
        | .ok vs => alternatingPath m T bse fuel w goal (path ++ vs.reverse)
    | none =>
      match dget? m start with
      | none => .ok (path ++ [start])
      | some tnode =>
        if some tnode = goal then .ok (path ++ [start] ++ [tnode])
        else
          match dget? T tnode with
          | none => .error .keyT
          | some ts => alternatingPath m T bse fuel ts goal (path ++ [start] ++ [tnode])

/-- The flip loop of `alternate`: `matching[path[i]] = path[i+1]` and
symmetrically, for each consecutive pair at even offset. -/
def flipPath : Dict Nat → List Nat → Dict Nat
  | m, a :: b :: rest => flipPath (dinsert (dinsert m a b) b a) rest
  | m, _ => m

/-- `alternate(v)`: make `v` unmatched by alternating the path from `v` to
the root of its structure tree. -/
def alternate (m T : Dict Nat) (bse : Dict (Nat × Nat)) (fuel v : Nat) :
    Except Err (Dict Nat) :=
  match alternatingPath m T bse fuel v none [] with
  | .error e => .error e
  | .ok path => .ok (flipPath m path.reverse)

/-- `addMatch(v, w)`: augment the matching along the S-S edge `v`-`w`
connecting two structure trees. -/
def addMatch (st : Phase) (fuel v w : Nat) : Except Err (Dict Nat) :=
  match alternate st.matching st.T st.base fuel v with
  | .error e => .error e
  | .ok m1 =>
    match alternate m1 st.T st.base fuel w with
    | .error e => .error e
    | .ok m2 => .ok (dinsert (dinsert m2 v w) w v)

/-- The root test `leader[S[head1]] == head1 and leader[S[head2]] == head2`
of `ss`, keeping the source's short-circuit evaluation: `S[head2]` is only
looked up when the first conjunct holds. -/
def rootTest (leader S : Dict Nat) (head1 head2 : Nat) : Except Err Bool :=
  match dget? S head1 with
  | none => .error .keyS
  | some s1 =>
    if ufFind leader s1 = head1 then
      match dget? S head2 with
      | none => .error .keyS
      | some s2 => .ok (ufFind leader s2 = head2)
    else .ok false

/-- The `while 1` loop of `ss`: walk both branches up one alternating step
at a time until a common ancestor (blossom) or two distinct roots
(augmenting path) are found. -/
def ssLoop (st : Phase) (v w : Nat) :
    Nat → Dict Nat → Dict Nat → Nat → Nat → Except Err (Bool × Phase)
  | 0, _, _, _, _ => .error .fuel
  | fuel + 1, path1, path2, head1, head2 =>
    match step st.leader st.S st.T path1 head1 with
    | .error e => .error e
    | .ok (path1', head1') =>
      match step st.leader st.S st.T path2 head2 with
      | .error e => .error e
      | .ok (path2', head2') =>
        if head1' = head2' then
          match blossom st v w head1' fuel with
          | .error e => .error e
          | .ok st' => .ok (false, st')
        else
          match rootTest st.leader st.S head1' head2' with
          | .error e => .error e
          | .ok true =>
            match addMatch st fuel v w with
            | .error e => .error e
            | .ok m => .ok (true, { st with matching := m })
          | .ok false =>
            if (dget? path2' head1').isSome then
              match blossom st v w head1' fuel with
              | .error e => .error e
              | .ok st' => .ok (false, st')
            else if (dget? path1' head2').isSome then
              match blossom st v w head2' fuel with
              | .error e => .error e
              | .ok st' => .ok (false, st')
            else ssLoop st v w fuel path1' path2' head1' head2'

/-- `ss(v, w)`: handle detection of an S-S edge; returns `true` iff the
matching size was increased.  A self-loop within a blossom is ignored. -/
def ss (st : Phase) (v w fuel : Nat) : Except Err (Bool × Phase) :=
  if ufFind st.leader v = ufFind st.leader w then .ok (false, st)
  else ssLoop st v w fuel [] [] v w

/-- The inner `for w in G[v]` loop of the main augmenting path search:
S-S edges dispatch to `ss`, unexplored vertices become T-nodes and their
matches S-nodes.  The lookup `u = matching[w]` is the `keyMatchW` site. -/
def processNbrs (fuel v : Nat) : Phase → List Nat → Except Err (Bool × Phase)
  | st, [] => .ok (false, st)
  | st, w :: ws =>
    if (dget? st.S (ufFind st.leader w)).isSome then
      match ss st v w fuel with
      | .error e => .error e
      | .ok (true, st') => .ok (true, st')
      | .ok (false, st') => processNbrs fuel v st' ws
    else if (dget? st.T w).isSome then processNbrs fuel v st ws
    else
      let st1 : Phase := { st with T := dinsert st.T w v }
      match dget? st1.matching w with
      | none => .error .keyMatchW
      | some u =>
        if (dget? st1.S (ufFind st1.leader u)).isSome then
          processNbrs fuel v st1 ws
        else
          processNbrs fuel v
            { st1 with S := dinsert st1.S u w,
                       unexplored := st1.unexplored ++ [u] } ws

/-- The main loop of `augment`: pop the next unexplored vertex in FIFO
order and process its neighbors; the phase ends unsuccessfully when the
queue empties. -/
def mainLoop (G : Graph) : Nat → Phase → Except Err (Bool × Dict Nat)
  | 0, _ => .error .fuel
  | fuel + 1, st =>
    match st.unexplored with
    | [] => .ok (false, st.matching)
    | v :: rest =>
      match dget? G v with
      | none => .error .keyG
      | some ns =>
        match processNbrs fuel v { st with unexplored := rest } ns with
        | .error e => .error e
        | .ok (true, st') => .ok (true, st'.matching)
        | .ok (false, st') => mainLoop G fuel st'

/-- Seeding of a phase: every currently unmatched vertex becomes an S-node
that is its own structure tree parent and enters the queue. -/
def seedLoop : Phase → List (Nat × List Nat) → Phase
  | st, [] => st
  | st, (v, _) :: rest =>
    if (dget? st.matching v).isSome then seedLoop st rest
    else
      seedLoop { st with S := dinsert st.S v v,
                         unexplored := st.unexplored ++ [v] } rest

/-- Fresh phase state for `augment`: empty bookkeeping, seeded S-nodes. -/
def seed (G : Graph) (m : Dict Nat) : Phase :=
  seedLoop { matching := m, leader := [], S := [], T := [], base := [],
             unexplored := [] } G

/-- `augment()`: search for a single augmenting path; returns `true`
together with the updated matching if the matching size was increased,
`false` otherwise. -/
def augment (G : Graph) (m : Dict Nat) (fuel : Nat) :
    Except Err (Bool × Dict Nat) :=
  mainLoop G fuel (seed G m)

/-- Inner loop of the greedy initializer: match `v` to its first unmatched
neighbor, if any. -/
def greedyInner (m : Dict Nat) (v : Nat) : List Nat → Dict Nat
  | [] => m
  | w :: ws =>
    if (dget? m w).isSome then greedyInner m v ws
    else dinsert (dinsert m v w) w v

/-- The greedy initializer: one pass over the vertices, pairing each
unmatched vertex with its first unmatched neighbor. -/
def greedy : Dict Nat → Graph → Dict Nat
  | m, [] => m
  | m, (v, ns) :: rest =>
    if (dget? m v).isSome then greedy m rest
    else greedy (greedyInner m v ns) rest

/-- The copy loop of the driver: `matching = {}` followed by
`matching[x] = initialMatching[x]` for each key of the initial matching. -/
def copyInit (init : Dict Nat) : Dict Nat :=
  init.foldl (fun m p => dinsert m p.1 p.2) []

/-- The driver loop `while augment(): pass`. -/
def phases (G : Graph) : Nat → Dict Nat → Except Err (Dict Nat)
  | 0, _ => .error .fuel
  | fuel + 1, m =>
    match augment G m fuel with
    | .error e => .error e
    | .ok (true, m') => phases G fuel m'
    | .ok (false, m') => .ok m'

/-- The two matching dictionaries in scope in the driver: the caller's
`initialMatching` argument and the private working dictionary `matching`
that the driver copies it into.  The source mutates only the latter. -/
structure MState where
  initialMatching : Dict Nat
  matching : Dict Nat
deriving Repr, DecidableEq

/-- The full driver, threading both dictionaries: copy the initial
matching, run the greedy initializer on the copy, then loop invoking the
phase search until it reports no augmentation. -/
def matchingRun (G : Graph) (st : MState) (fuel : Nat) : Except Err MState :=
  let m := copyInit st.initialMatching
  let m := greedy m G
  match phases G fuel m with
  | .error e => .error e
  | .ok m' => .ok { st with matching := m' }

/-- `matching(G, initialMatching)`: find a maximum cardinality matching in
the graph `G`, returning the dictionary mapping vertices to their
matches. -/
def matching (G : Graph) (initM : Dict Nat) (fuel : Nat) :
    Except Err (Dict Nat) :=
  match matchingRun G { initialMatching := initM, matching := [] } fuel with
  | .error e => .error e
  | .ok st => .ok st.matching

/-! ### Dictionary lemmas -/

theorem dget?_dinsert_self {α : Type} (d : Dict α) (k : Nat) (v : α) :
    dget? (dinsert d k v) k = some v := by
  induction d with
  | nil => simp [dget?, dinsert]
  | cons p rest ih =>
    by_cases h : p.1 = k
    · simp [dget?, dinsert, h]
    · simp [dget?, dinsert, h, ih]

theorem dget?_dinsert_ne {α : Type} (d : Dict α) {k' k : Nat} (v : α)
    (h : k' ≠ k) : dget? (dinsert d k' v) k = dget? d k := by
  induction d with
  | nil => simp [dget?, dinsert, h]
  | cons p rest ih =>
    by_cases hp : p.1 = k'
    · have hpk : p.1 ≠ k := hp ▸ h
      simp [dget?, dinsert, hp, h, hpk]
    · simp only [dinsert, hp, if_false, dget?]
      by_cases hk : p.1 = k <;> simp [hk, ih]

theorem dget?_dinsert_isSome {α : Type} (d : Dict α) {k : Nat} (k' : Nat)
    (v : α) (h : (dget? d k).isSome) :
    (dget? (dinsert d k' v) k).isSome := by
  by_cases hk : k' = k
  · subst hk; simp [dget?_dinsert_self]
  · rwa [dget?_dinsert_ne d v hk]

theorem dget?_mem {α : Type} {d : Dict α} {k : Nat} {v : α}
    (h : dget? d k = some v) : (k, v) ∈ d := by
  induction d with
  | nil => simp [dget?] at h
  | cons p rest ih =>
    by_cases hp : p.1 = k
    · simp only [dget?, hp, if_true, Option.some.injEq] at h
      have : (k, v) = p := by cases p; simp_all
      rw [this]; exact List.mem_cons_self p rest
    · simp only [dget?, hp, if_false] at h
      exact List.mem_cons_of_mem _ (ih h)

theorem dget?_append_some {α : Type} {d1 : Dict α} (d2 : Dict α) {k : Nat}
    {v : α} (h : dget? d1 k = some v) : dget? (d1 ++ d2) k = some v := by
  induction d1 with
  | nil => simp [dget?] at h
  | cons p rest ih =>
    by_cases hp : p.1 = k
    · simp only [dget?, hp, if_true] at h ⊢; exact h
    · simp only [dget?, hp, if_false] at h ⊢
      exact ih h

theorem dget?_append_none {α : Type} {d1 : Dict α} (d2 : Dict α) {k : Nat}
    (h : dget? d1 k = none) : dget? (d1 ++ d2) k = dget? d2 k := by
  induction d1 with
  | nil => simp
  | cons p rest ih =>
    by_cases hp : p.1 = k
    · simp [dget?, hp] at h
    · simp only [dget?, hp, if_false] at h ⊢
      exact ih h

theorem dget?_map_const {α : Type} (ys : List Nat) (r : α) (k : Nat) :
    dget? (ys.map (fun x => (x, r))) k =
      if k ∈ ys then some r else none := by
  induction ys with
  | nil => simp [dget?]
  | cons y ys ih =>
    by_cases hy : y = k
    · simp [dget?, hy]
    · simp only [List.map_cons, dget?, hy, if_false, ih, List.mem_cons]
      have : ¬k = y := fun h => hy h.symm
      simp [this]

/-! ### Union-find lemmas -/

/-- The representative map is closed: every stored representative is its
own representative. -/
def ufInv (uf : Dict Nat) : Prop := ∀ p ∈ uf, ufFind uf p.2 = p.2

theorem ufInv_nil : ufInv [] := by intro p hp; simp at hp

theorem ufFind_nil (x : Nat) : ufFind [] x = x := rfl

theorem ufFind_idem {uf : Dict Nat} (h : ufInv uf) (x : Nat) :
    ufFind uf (ufFind uf x) = ufFind uf x := by
  cases hx : dget? uf x with
  | none => simp [ufFind, hx]
  | some b =>
    have hb := h _ (dget?_mem hx)
    have hfx : ufFind uf x = b := by simp [ufFind, hx]
    rw [hfx]; exact hb

theorem dget?_map_remap (uf : Dict Nat) (roots : List Nat) (r k : Nat) :
    dget? (uf.map (fun p => if p.2 ∈ roots then (p.1, r) else p)) k =
      (dget? uf k).map (fun b => if b ∈ roots then r else b) := by
  induction uf with
  | nil => simp [dget?]
  | cons p rest ih =>
    by_cases hk : p.1 = k
    · by_cases hr : p.2 ∈ roots <;> simp [dget?, hk, hr]
    · by_cases hr : p.2 ∈ roots <;> simp [dget?, hk, hr, ih]

theorem dget?_ufUnion (uf : Dict Nat) (x0 : Nat) (xr : List Nat) (x : Nat) :
    dget? (ufUnion uf (x0 :: xr)) x =
      if x ∈ (x0 :: xr) ++ (x0 :: xr).map (ufFind uf) then
        some (ufFind uf x0)
      else
        (dget? uf x).map (fun b =>
          if b ∈ (x0 :: xr).map (ufFind uf) then ufFind uf x0 else b) := by
  show dget? ((((x0 :: xr) ++ (x0 :: xr).map (ufFind uf)).map
      (fun y => (y, ufFind uf x0))) ++
      uf.map (fun p =>
        if p.2 ∈ (x0 :: xr).map (ufFind uf) then (p.1, ufFind uf x0) else p))
      x = _
  by_cases hx : x ∈ (x0 :: xr) ++ (x0 :: xr).map (ufFind uf)
  · have h1 : dget? (((x0 :: xr) ++ (x0 :: xr).map (ufFind uf)).map
        (fun y => (y, ufFind uf x0))) x = some (ufFind uf x0) := by
      rw [dget?_map_const]; exact if_pos hx
    rw [dget?_append_some _ h1, if_pos hx]
  · have h1 : dget? (((x0 :: xr) ++ (x0 :: xr).map (ufFind uf)).map
        (fun y => (y, ufFind uf x0))) x = none := by
      rw [dget?_map_const]; exact if_neg hx
    rw [dget?_append_none _ h1, dget?_map_remap, if_neg hx]

theorem ufFind_ufUnion (uf : Dict Nat) (x0 : Nat) (xr : List Nat)
    (h : ufInv uf) (x : Nat) :
    ufFind (ufUnion uf (x0 :: xr)) x =
      if ufFind uf x ∈ (x0 :: xr).map (ufFind uf) then ufFind uf x0
      else ufFind uf x := by
  have key : ufFind (ufUnion uf (x0 :: xr)) x =
      ((if x ∈ (x0 :: xr) ++ (x0 :: xr).map (ufFind uf) then
          some (ufFind uf x0)
        else
          (dget? uf x).map (fun b =>
            if b ∈ (x0 :: xr).map (ufFind uf) then ufFind uf x0
            else b)).getD x) := by
    show (dget? (ufUnion uf (x0 :: xr)) x).getD x = _
    rw [dget?_ufUnion]
  rw [key]
  by_cases hx : x ∈ (x0 :: xr) ++ (x0 :: xr).map (ufFind uf)
  · have hfx : ufFind uf x ∈ (x0 :: xr).map (ufFind uf) := by
      rcases List.mem_append.mp hx with hx1 | hx2
      · exact List.mem_map_of_mem _ hx1
      · obtain ⟨y, _, hy⟩ := List.mem_map.mp hx2
        have hxx : ufFind uf x = x := by rw [← hy]; exact ufFind_idem h y
        rw [hxx]; exact hx2
    rw [if_pos hx, if_pos hfx, Option.getD_some]
  · rw [if_neg hx]
    cases hb : dget? uf x with
    | some b =>
      have hfb : ufFind uf x = b := by simp [ufFind, hb]
      rw [hfb]; simp
    | none =>
      have hfb : ufFind uf x = x := by simp [ufFind, hb]
      have hxr : x ∉ (x0 :: xr).map (ufFind uf) := fun hc =>
        hx (List.mem_append_right _ hc)
      rw [hfb, if_neg hxr]; simp

theorem ufInv_ufUnion {uf : Dict Nat} (h : ufInv uf) (xs : List Nat) :
    ufInv (ufUnion uf xs) := by
  cases xs with
  | nil => exact h
  | cons x0 xr =>
    intro p hp
    have key := ufFind_ufUnion uf x0 xr h
    have hrroot : ufFind (ufUnion uf (x0 :: xr)) (ufFind uf x0) =
        ufFind uf x0 := by
      rw [key]
      have h1 : ufFind uf (ufFind uf x0) = ufFind uf x0 := ufFind_idem h x0
      have h2 : ufFind uf (ufFind uf x0) ∈ (x0 :: xr).map (ufFind uf) := by
        rw [h1]; exact List.mem_map_of_mem _ (List.mem_cons_self x0 xr)
      rw [if_pos h2]
    have hp2 : p ∈ (((x0 :: xr) ++ (x0 :: xr).map (ufFind uf)).map
        (fun y => (y, ufFind uf x0))) ++
        uf.map (fun q =>
          if q.2 ∈ (x0 :: xr).map (ufFind uf) then (q.1, ufFind uf x0)
          else q) := hp
    rcases List.mem_append.mp hp2 with hm1 | hm2
    · obtain ⟨y, _, hy⟩ := List.mem_map.mp hm1
      have hv : p.2 = ufFind uf x0 := by rw [← hy]
      rw [hv]; exact hrroot
    · obtain ⟨q, hq, hqe⟩ := List.mem_map.mp hm2
      by_cases hqr : q.2 ∈ (x0 :: xr).map (ufFind uf)
      · have hv : p.2 = ufFind uf x0 := by rw [← hqe, if_pos hqr]
        rw [hv]; exact hrroot
      · have hv : p.2 = q.2 := by rw [← hqe, if_neg hqr]
        have hq2 : ufFind uf q.2 = q.2 := h q hq
        rw [hv, key, hq2, if_neg hqr]

/-! ### The `keyMatchW` error site is unreachable from the subroutines

The lookup `u = matching[w]` is the only site mapped to `Err.keyMatchW`;
none of the subroutines of the search can produce it. -/

theorem step_noMW (leader S T path : Dict Nat) (head : Nat) :
    step leader S T path head ≠ .error .keyMatchW := by
  intro h
  simp only [step] at h
  split at h
  · simp at h
  · split at h
    · simp at h
    · split at h <;> simp at h

theorem findSideFrom_noMW (leader S T : Dict Nat) (b : Nat × Nat) (a : Nat) :
    ∀ fuel last bse unx,
      findSideFrom leader S T b a fuel last bse unx ≠ .error .keyMatchW := by
  intro fuel
  induction fuel with
  | zero =>
    intro last bse unx h
    simp only [findSideFrom] at h
    split at h <;> simp at h
  | succ f ih =>
    intro last bse unx h
    simp only [findSideFrom] at h
    split at h
    · simp at h
    · split at h
      · simp at h
      · split at h
        · simp at h
        · split at h
          · rename_i e heq
            simp only [Except.error.injEq] at h
            subst h
            exact ih _ _ _ heq
          · simp at h

theorem findSideFrom_mem (leader S T : Dict Nat) (b : Nat × Nat) (a : Nat) :
    ∀ fuel last bse unx p bs ux,
      findSideFrom leader S T b a fuel last bse unx = .ok (p, bs, ux) →
      ∃ pr, p = last :: pr ∧ a ∈ p := by
  intro fuel
  induction fuel with
  | zero =>
    intro last bse unx p bs ux h
    simp only [findSideFrom] at h
    split at h
    · rename_i hla
      simp only [Except.ok.injEq, Prod.mk.injEq] at h
      obtain ⟨h1, -, -⟩ := h
      subst h1
      exact ⟨[], rfl, by simp [hla]⟩
    · simp at h
  | succ f ih =>
    intro last bse unx p bs ux h
    simp only [findSideFrom] at h
    split at h
    · rename_i hla
      simp only [Except.ok.injEq, Prod.mk.injEq] at h
      obtain ⟨h1, -, -⟩ := h
      subst h1
      exact ⟨[], rfl, by simp [hla]⟩
    · split at h
      · simp at h
      · split at h
        · simp at h
        · split at h
          · simp at h
          · rename_i p' bs' ux' heq
            simp only [Except.ok.injEq, Prod.mk.injEq] at h
            obtain ⟨h1, -, -⟩ := h
            subst h1
            obtain ⟨pr', -, hmem⟩ := ih _ _ _ _ _ _ heq
            exact ⟨_, rfl,
              List.mem_cons_of_mem _ (List.mem_cons_of_mem _ hmem)⟩

theorem alternatingPath_noMW (m T : Dict Nat) (bse : Dict (Nat × Nat)) :
    ∀ fuel start goal path,
      alternatingPath m T bse fuel start goal path ≠ .error .keyMatchW := by
  intro fuel
  induction fuel with
  | zero => intro start goal path h; simp only [alternatingPath] at h; simp at h
  | succ f ih =>
    intro start goal path h
    simp only [alternatingPath] at h
    split at h
    · split at h
      · simp at h
      · split at h
        · rename_i e heq
          simp only [Except.error.injEq] at h
          subst h
          exact ih _ _ _ heq
        · exact ih _ _ _ h
    · split at h
      · simp at h
      · split at h
        · simp at h
        · split at h
          · simp at h
          · exact ih _ _ _ h

theorem alternate_noMW (m T : Dict Nat) (bse : Dict (Nat × Nat))
    (fuel v : Nat) : alternate m T bse fuel v ≠ .error .keyMatchW := by
  intro h
  simp only [alternate] at h
  split at h
  · rename_i e heq
    simp only [Except.error.injEq] at h
    subst h
    exact alternatingPath_noMW m T bse _ _ _ _ heq
  · simp at h

theorem addMatch_noMW (st : Phase) (fuel v w : Nat) :
    addMatch st fuel v w ≠ .error .keyMatchW := by
  intro h
  simp only [addMatch] at h
  split at h
  · rename_i e heq
    simp only [Except.error.injEq] at h
    subst h
    exact alternate_noMW _ _ _ _ _ heq
  · split at h
    · rename_i e heq
      simp only [Except.error.injEq] at h
      subst h
      exact alternate_noMW _ _ _ _ _ heq
    · simp at h

theorem blossom_noMW (st : Phase) (v w a fuel : Nat) :
    blossom st v w a fuel ≠ .error .keyMatchW := by
  intro h
  simp only [blossom] at h
  split at h
  · rename_i e heq
    simp only [Except.error.injEq] at h
    subst h
    exact findSideFrom_noMW _ _ _ _ _ _ _ _ _ heq
  · split at h
    · rename_i e heq
      simp only [Except.error.injEq] at h
      subst h
      exact findSideFrom_noMW _ _ _ _ _ _ _ _ _ heq
    · split at h <;> simp at h

theorem rootTest_noMW (leader S : Dict Nat) (head1 head2 : Nat) :
    rootTest leader S head1 head2 ≠ .error .keyMatchW := by
  intro h
  simp only [rootTest] at h
  split at h
  · simp at h
  · split at h
    · split at h <;> simp at h
    · simp at h

theorem ssLoop_noMW (st : Phase) (v w : Nat) :
    ∀ fuel path1 path2 head1 head2,
      ssLoop st v w fuel path1 path2 head1 head2 ≠ .error .keyMatchW := by
  intro fuel
  induction fuel with
  | zero => intro p1 p2 h1 h2 h; simp only [ssLoop] at h; simp at h
  | succ f ih =>
    intro p1 p2 h1 h2 h
    simp only [ssLoop] at h
    split at h
    · rename_i e heq
      simp only [Except.error.injEq] at h
      subst h
      exact step_noMW _ _ _ _ _ heq
    · split at h
      · rename_i e heq
        simp only [Except.error.injEq] at h
        subst h
        exact step_noMW _ _ _ _ _ heq
      · split at h
        · split at h
          · rename_i e heq
            simp only [Except.error.injEq] at h
            subst h
            exact blossom_noMW _ _ _ _ _ heq
          · simp at h
        · split at h
          · rename_i e heq
            simp only [Except.error.injEq] at h
            subst h
            exact rootTest_noMW _ _ _ _ heq
          · split at h
            · rename_i e heq
              simp only [Except.error.injEq] at h
              subst h
              exact addMatch_noMW _ _ _ _ heq
            · simp at h
          · split at h
            · split at h
              · rename_i e heq
                simp only [Except.error.injEq] at h
                subst h
                exact blossom_noMW _ _ _ _ _ heq
              · simp at h
            · split at h
              · split at h
                · rename_i e heq
                  simp only [Except.error.injEq] at h
                  subst h
                  exact blossom_noMW _ _ _ _ _ heq
                · simp at h
              · exact ih _ _ _ _ h

theorem ss_noMW (st : Phase) (v w fuel : Nat) :
    ss st v w fuel ≠ .error .keyMatchW := by
  intro h
  simp only [ss] at h
  split at h
  · simp at h
  · exact ssLoop_noMW _ _ _ _ _ _ _ _ h

/-! ### The phase invariant

Every vertex of the graph that is currently unmatched was seeded as an
S-node root, and blossom contraction keeps the leader of every merged
vertex an S-key; hence an unmatched vertex's leader is always an S-node,
and the T-branch of the main loop (whose lookup `u = matching[w]` is the
`keyMatchW` site) can only be entered for matched vertices. -/

def phaseInv (G : Graph) (st : Phase) : Prop :=
  ufInv st.leader ∧
  ∀ x, (dget? G x).isSome → dget? st.matching x = none →
    (dget? st.S (ufFind st.leader x)).isSome

theorem ufFind_union2 (uf : Dict Nat) (p1 p2 : List Nat) (a : Nat)
    (h : ufInv uf) (h1 : a ∈ p1) (h2 : a ∈ p2) (x : Nat) :
    ufFind (ufUnion (ufUnion uf p1) p2) x = ufFind uf x ∨
    ufFind (ufUnion (ufUnion uf p1) p2) x =
      ufFind (ufUnion (ufUnion uf p1) p2) a := by
  cases p1 with
  | nil => cases h1
  | cons q1 t1 =>
    cases p2 with
    | nil => cases h2
    | cons q2 t2 =>
      have hInv1 : ufInv (ufUnion uf (q1 :: t1)) := ufInv_ufUnion h _
      have e1 := ufFind_ufUnion uf q1 t1 h
      have e2 := ufFind_ufUnion (ufUnion uf (q1 :: t1)) q2 t2 hInv1
      have ha1 : ufFind uf a ∈ (q1 :: t1).map (ufFind uf) :=
        List.mem_map_of_mem _ h1
      have hld1a : ufFind (ufUnion uf (q1 :: t1)) a = ufFind uf q1 := by
        rw [e1 a, if_pos ha1]
      have ha2 : ufFind (ufUnion uf (q1 :: t1)) a ∈
          (q2 :: t2).map (ufFind (ufUnion uf (q1 :: t1))) :=
        List.mem_map_of_mem _ h2
      have hr1mem : ufFind uf q1 ∈
          (q2 :: t2).map (ufFind (ufUnion uf (q1 :: t1))) := hld1a ▸ ha2
      have hld2a : ufFind (ufUnion (ufUnion uf (q1 :: t1)) (q2 :: t2)) a =
          ufFind (ufUnion uf (q1 :: t1)) q2 := by
        rw [e2 a, if_pos ha2]
      rw [e2 x]
      by_cases hc2 : ufFind (ufUnion uf (q1 :: t1)) x ∈
          (q2 :: t2).map (ufFind (ufUnion uf (q1 :: t1)))
      · right
        rw [if_pos hc2, hld2a]
      · rw [if_neg hc2, e1 x]
        by_cases hc1 : ufFind uf x ∈ (q1 :: t1).map (ufFind uf)
        · exfalso
          apply hc2
          rw [e1 x, if_pos hc1]
          exact hr1mem
        · left
          rw [if_neg hc1]

theorem blossom_matching_eq (st : Phase) (v w a fuel : Nat) (st' : Phase)
    (h : blossom st v w a fuel = .ok st') : st'.matching = st.matching := by
  simp only [blossom] at h
  split at h
  · simp at h
  · split at h
    · simp at h
    · split at h
      · simp at h
      · simp only [Except.ok.injEq] at h
        subst h
        rfl

theorem blossom_phaseInv (G : Graph) (st : Phase) (v w a fuel : Nat)
    (st' : Phase) (hInv : phaseInv G st)
    (h : blossom st v w a fuel = .ok st') : phaseInv G st' := by
  obtain ⟨hUF, hS⟩ := hInv
  simp only [blossom] at h
  split at h
  · simp at h
  · rename_i p1 b1 u1 heq1
    split at h
    · simp at h
    · rename_i p2 b2 u2 heq2
      split at h
      · simp at h
      · rename_i sa heqS
        simp only [Except.ok.injEq] at h
        subst h
        refine ⟨ufInv_ufUnion (ufInv_ufUnion hUF _) _, ?_⟩
        intro x hx hm
        obtain ⟨pr1, -, hmem1⟩ :=
          findSideFrom_mem _ _ _ _ _ _ _ _ _ _ _ _ heq1
        obtain ⟨pr2, -, hmem2⟩ :=
          findSideFrom_mem _ _ _ _ _ _ _ _ _ _ _ _ heq2
        rcases ufFind_union2 st.leader p1 p2 (ufFind st.leader a) hUF
            hmem1 hmem2 x with hcase | hcase
        · rw [hcase]
          exact dget?_dinsert_isSome _ _ _ (hS x hx hm)
        · rw [hcase, dget?_dinsert_self]
          rfl

theorem ssLoop_phaseInv (G : Graph) (st : Phase) (v w : Nat)
    (hInv : phaseInv G st) :
    ∀ fuel path1 path2 head1 head2 st',
      ssLoop st v w fuel path1 path2 head1 head2 = .ok (false, st') →
      phaseInv G st' := by
  intro fuel
  induction fuel with
  | zero => intro p1 p2 h1 h2 st' h; simp only [ssLoop] at h; simp at h
  | succ f ih =>
    intro p1 p2 h1 h2 st' h
    simp only [ssLoop] at h
    split at h
    · simp at h
    · split at h
      · simp at h
      · split at h
        · split at h
          · simp at h
          · rename_i st'' heq
            simp only [Except.ok.injEq, Prod.mk.injEq] at h
            obtain ⟨-, h2'⟩ := h
            subst h2'
            exact blossom_phaseInv _ _ _ _ _ _ _ hInv heq
        · split at h
          · simp at h
          · split at h
            · simp at h
            · simp at h
          · split at h
            · split at h
              · simp at h
              · rename_i st'' heq
                simp only [Except.ok.injEq, Prod.mk.injEq] at h
                obtain ⟨-, h2'⟩ := h
                subst h2'
                exact blossom_phaseInv _ _ _ _ _ _ _ hInv heq
            · split at h
              · split at h
                · simp at h
                · rename_i st'' heq
                  simp only [Except.ok.injEq, Prod.mk.injEq] at h
                  obtain ⟨-, h2'⟩ := h
                  subst h2'
                  exact blossom_phaseInv _ _ _ _ _ _ _ hInv heq
              · exact ih _ _ _ _ _ h

theorem ss_phaseInv (G : Graph) (st : Phase) (v w fuel : Nat) (st' : Phase)
    (hInv : phaseInv G st) (h : ss st v w fuel = .ok (false, st')) :
    phaseInv G st' := by
  simp only [ss] at h
  split at h
  · simp only [Except.ok.injEq, Prod.mk.injEq] at h
    obtain ⟨-, h2⟩ := h
    subst h2
    exact hInv
  · exact ssLoop_phaseInv G st v w hInv _ _ _ _ _ _ h

/-- Bundled conclusion for the neighbor loop: the result is not the
`keyMatchW` error, and an unsuccessful result's state still satisfies the
phase invariant. -/
def nbrsOK (G : Graph) (r : Except Err (Bool × Phase)) : Prop :=
  r ≠ .error .keyMatchW ∧ ∀ st', r = .ok (false, st') → phaseInv G st'

theorem processNbrs_spec (G : Graph) (v : Nat) :
    ∀ (ws : List Nat), (∀ x ∈ ws, (dget? G x).isSome) →
      ∀ (fuel : Nat) (st : Phase), phaseInv G st →
      nbrsOK G (processNbrs fuel v st ws) := by
  intro ws
  induction ws with
  | nil =>
    intro hws fuel st hInv
    simp only [processNbrs]
    refine ⟨by simp, ?_⟩
    intro st' h
    simp only [Except.ok.injEq, Prod.mk.injEq] at h
    obtain ⟨-, h2⟩ := h
    subst h2
    exact hInv
  | cons w ws ih =>
    intro hws fuel st hInv
    have hw : (dget? G w).isSome := hws w (List.mem_cons_self _ _)
    have hws' : ∀ x ∈ ws, (dget? G x).isSome := fun x hx =>
      hws x (List.mem_cons_of_mem _ hx)
    simp only [processNbrs]
    split
    · -- S-S edge: dispatch to ss
      split
      · rename_i e hss
        refine ⟨?_, by intro st' h; simp at h⟩
        intro h
        simp only [Except.error.injEq] at h
        subst h
        exact ss_noMW _ _ _ _ hss
      · exact ⟨by simp, by intro st' h; simp at h⟩
      · rename_i st'' hss
        exact ih hws' fuel st'' (ss_phaseInv G st v w fuel st'' hInv hss)
    · split
      · -- already a T-node: skip
        exact ih hws' fuel st hInv
      · -- new T-node
        rename_i hSneg hTneg
        split
        · rename_i hmw
          -- the keyMatchW site: contradicts the invariant
          exact absurd (hInv.2 w hw hmw) hSneg
        · split
          · exact ih hws' fuel _ hInv
          · refine ih hws' fuel _ ⟨hInv.1, ?_⟩
            intro x hx hm
            exact dget?_dinsert_isSome _ _ _ (hInv.2 x hx hm)

theorem wfClosed_nbr {G : Graph} (hG : wfClosed G = true) {v : Nat}
    {ns : List Nat} (hns : dget? G v = some ns) :
    ∀ x ∈ ns, (dget? G x).isSome := by
  intro x hx
  have hmem := dget?_mem hns
  have h1 := List.all_eq_true.mp hG ⟨v, ns⟩ hmem
  exact List.all_eq_true.mp h1 x hx

theorem mainLoop_noMW (G : Graph) (hG : wfClosed G = true) :
    ∀ fuel st, phaseInv G st → mainLoop G fuel st ≠ .error .keyMatchW := by
  intro fuel
  induction fuel with
  | zero => intro st hInv h; simp only [mainLoop] at h; simp at h
  | succ f ih =>
    intro st hInv h
    simp only [mainLoop] at h
    split at h
    · simp at h
    · rename_i v rest hq
      split at h
      · simp at h
      · rename_i ns hns
        obtain ⟨hne, hok⟩ := processNbrs_spec G v ns (wfClosed_nbr hG hns) f
          { st with unexplored := rest } hInv
        split at h
        · rename_i e heq
          simp only [Except.error.injEq] at h
          subst h
          exact hne heq
        · simp at h
        · rename_i st' heq
          exact ih st' (hok st' heq) h

theorem seedLoop_matching : ∀ (G' : List (Nat × List Nat)) (st : Phase),
    (seedLoop st G').matching = st.matching := by
  intro G'
  induction G' with
  | nil => intro st; rfl
  | cons p rest ih =>
    intro st
    obtain ⟨pv, pns⟩ := p
    simp only [seedLoop]
    split
    · exact ih st
    · exact ih _

theorem seedLoop_leader : ∀ (G' : List (Nat × List Nat)) (st : Phase),
    (seedLoop st G').leader = st.leader := by
  intro G'
  induction G' with
  | nil => intro st; rfl
  | cons p rest ih =>
    intro st
    obtain ⟨pv, pns⟩ := p
    simp only [seedLoop]
    split
    · exact ih st
    · exact ih _

theorem seedLoop_S_mono : ∀ (G' : List (Nat × List Nat)) (st : Phase)
    (x : Nat), (dget? st.S x).isSome →
    (dget? (seedLoop st G').S x).isSome := by
  intro G'
  induction G' with
  | nil => intro st x hx; exact hx
  | cons p rest ih =>
    intro st x hx
    obtain ⟨pv, pns⟩ := p
    simp only [seedLoop]
    split
    · exact ih st x hx
    · exact ih _ x (dget?_dinsert_isSome _ _ _ hx)

theorem seedLoop_covers : ∀ (G' : List (Nat × List Nat)) (st : Phase)
    (x : Nat), (dget? G' x).isSome → dget? st.matching x = none →
    (dget? (seedLoop st G').S x).isSome := by
  intro G'
  induction G' with
  | nil => intro st x hx; simp [dget?] at hx
  | cons p rest ih =>
    intro st x hx hm
    obtain ⟨pv, pns⟩ := p
    by_cases hpx : pv = x
    · subst hpx
      simp only [seedLoop]
      split
      · rename_i hms
        rw [hm] at hms
        simp at hms
      · exact seedLoop_S_mono rest _ pv
          (by rw [dget?_dinsert_self]; rfl)
    · have hx' : (dget? rest x).isSome := by
        simpa [dget?, hpx] using hx
      simp only [seedLoop]
      split
      · exact ih st x hx' hm
      · exact ih _ x hx' hm

theorem seed_phaseInv (G : Graph) (m : Dict Nat) : phaseInv G (seed G m) := by
  constructor
  · show ufInv (seedLoop _ G).leader
    rw [seedLoop_leader]
    exact ufInv_nil
  · intro x hx hm
    show (dget? (seedLoop _ G).S (ufFind (seedLoop _ G).leader x)).isSome
    rw [seedLoop_leader]
    have hm' : dget? (m : Dict Nat) x = none := by
      simp only [seed] at hm
      rw [seedLoop_matching G
        { matching := m, leader := [], S := [], T := [], base := [],
          unexplored := [] }] at hm
      exact hm
    exact seedLoop_covers G _ x hx (by simpa [ufFind_nil] using hm')

/-! ### Concrete instances used by the witnesses -/

/-- The triangle graph 0-1-2. -/
def g3 : Graph := [(0, [1, 2]), (1, [2, 0]), (2, [0, 1])]

/-- A phase state in which `blossom` succeeds: vertices 0 and 1 share the
leader 0, which is an S-node, and the matching holds an unrelated pair. -/
def blossomW : Phase :=
  { matching := [(5, 6)], leader := [(1, 0)], S := [(0, 0)], T := [],
    base := [], unexplored := [] }

/-- The state produced by `blossom blossomW 0 1 0 5`. -/
def blossomWRes : Phase :=
  { matching := [(5, 6)],
    leader := [(0, 0), (0, 0), (0, 0), (0, 0), (1, 0)],
    S := [(0, 0)], T := [], base := [], unexplored := [] }

/-- Driver input on the triangle with a nonempty initial matching. -/
def runW : MState := { initialMatching := [(0, 1), (1, 0)], matching := [] }

/-- The driver state returned by `matchingRun g3 runW 10`. -/
def runWRes : MState :=
  { initialMatching := [(0, 1), (1, 0)], matching := [(0, 1), (1, 0)] }

/-- The 5-cycle 0-1-2-3-4-0 of the spec's concrete scenario. -/
def cycle5 : Graph :=
  [(0, [1, 4]), (1, [2, 0]), (2, [3, 1]), (3, [4, 2]), (4, [0, 3])]

/-- The bowtie graph of the spec's concrete scenario. -/
def bowtie : Graph :=
  [(0, [1, 2]), (1, [0, 2]), (2, [0, 1, 3, 4]), (3, [2, 4]), (4, [2, 3])]

/-- The star graph with center 0 and leaves 1..5. -/
def star6 : Graph :=
  [(0, [1, 2, 3, 4, 5]), (1, [0]), (2, [0]), (3, [0]), (4, [0]), (5, [0])]

example : matching cycle5 [] 50 = .ok [(0, 1), (1, 0), (2, 3), (3, 2)] := rfl

example : matching bowtie [] 50 = .ok [(0, 1), (1, 0), (2, 3), (3, 2)] := rfl

example : matching star6 [] 50 = .ok [(0, 1), (1, 0)] := rfl

/-! ### Claims -/

/-- Claim C5: during every phase on a well-formed symmetric graph with a
valid current matching, every vertex `w` that is assigned a T role (the
branch taken when `leader[w]` is not an S-node and `w` is not yet in `T`)
is matched at that moment, so the lookup `u = matching[w]` always
succeeds; equivalently, every unmatched vertex's leader is an S-node
throughout the phase.  Formally: for every fuel, the phase search
`augment` never aborts with the `keyMatchW` error, which is raised exactly
when that lookup fails. -/
theorem augment_T_branch_matched (G : Graph) (m : Dict Nat) (fuel : Nat)
    (hwf : wellformedG G = true) (hm : validMatchingB G m = true) :
    augment G m fuel ≠ .error .keyMatchW := by
  have hClosed : wfClosed G = true := by
    simp only [wellformedG, Bool.and_eq_true] at hwf
    exact hwf.1.1
  show mainLoop G fuel (seed G m) ≠ .error .keyMatchW
  exact mainLoop_noMW G hClosed fuel (seed G m) (seed_phaseInv G m)

/-- Witness for C5 at the triangle graph with the empty matching. -/
theorem augment_T_branch_matched_witness :
    wellformedG g3 = true ∧ validMatchingB g3 [] = true ∧
    augment g3 [] 10 ≠ .error .keyMatchW :=
  ⟨rfl, rfl, augment_T_branch_matched g3 [] 10 rfl rfl⟩

/-- Claim C6: blossom formation never modifies the matching: for every
invocation of `blossom(v, w, a)` during a phase, the matching mapping is
identical before and after the call; only the per-phase bookkeeping
(leader union-find, S, base, unexplored) is changed. -/
theorem blossom_preserves_matching (st st' : Phase) (v w a fuel : Nat)
    (h : blossom st v w a fuel = .ok st') : st'.matching = st.matching :=
  blossom_matching_eq st v w a fuel st' h

/-- Witness for C6 at a concrete successful blossom contraction. -/
theorem blossom_preserves_matching_witness :
    blossom blossomW 0 1 0 5 = .ok blossomWRes ∧
    blossomWRes.matching = blossomW.matching :=
  ⟨rfl, blossom_preserves_matching blossomW blossomWRes 0 1 0 5 rfl⟩

/-- Claim C9: the algorithm is deterministic given a fixed
neighbor-iteration order: two invocations of `matching` with equal graphs
(equal vertex and neighbor iteration order) and equal initial matchings
return identical outputs. -/
theorem matching_deterministic (G1 G2 : Graph) (m1 m2 : Dict Nat)
    (fuel : Nat) (hG : G1 = G2) (hm : m1 = m2) :
    matching G1 m1 fuel = matching G2 m2 fuel := by
  rw [hG, hm]

/-- Witness for C9 at the triangle graph. -/
theorem matching_deterministic_witness :
    g3 = g3 ∧ matching g3 [] 10 = matching g3 [] 10 :=
  ⟨rfl, matching_deterministic g3 g3 [] [] 10 rfl rfl⟩

/-- Claim C10: `matching(G, initialMatching)` never mutates its
`initialMatching` argument: the driver copies the initial matching into a
private dictionary and every subsequent write targets the copy, so after
the call the initial matching holds exactly the entries it held before. -/
theorem matchingRun_preserves_initial (G : Graph) (st : MState) (fuel : Nat)
    (st' : MState) (h : matchingRun G st fuel = .ok st') :
    st'.initialMatching = st.initialMatching := by
  simp only [matchingRun] at h
  split at h
  · simp at h
  · simp only [Except.ok.injEq] at h
    subst h
    rfl

/-- Witness for C10 at the triangle graph with a nonempty initial
matching. -/
theorem matchingRun_preserves_initial_witness :
    matchingRun g3 runW 10 = .ok runWRes ∧
    runWRes.initialMatching = runW.initialMatching :=
  ⟨rfl, matchingRun_preserves_initial g3 runW 10 runWRes rfl⟩

end CardinalityMatching
